import Mathlib

/-!
Verification of the `dotStopReader` terminator filter and the header
assembly of `cmd/mailgun-sendmail/main.go`.

Bytes are modelled as `Nat` (13 = CR, 10 = LF, 46 = dot).  The underlying
`io.Reader` is modelled as the list of chunks its successive `Read` calls
return; after the chunks are exhausted it reports end of stream.  A filter
`Read` call is a pure function of the withheld carry bytes and the fresh
chunk, because the Go code resets `r.state` to 0 before the scan loop and
prepends `r.extra[:r.state]` to the freshly read bytes.
-/

/-- `c == '\r' || c == '\n'`, the line-break test used by the Go scan loop. -/
def isBreak (c : Nat) : Bool := c == 13 || c == 10

/-- One iteration of the `switch r.state` in `(*dotStopReader).Read`:
state 0 moves to 1 on a break, state 1 moves to 2 on `'.'`, state 2 moves
to 3 on a break; in every other case the state is left unchanged (the Go
switch has no other assignments). -/
def step (s c : Nat) : Nat :=
  match s with
  | 0 => if isBreak c then 1 else 0
  | 1 => if c == 46 then 2 else 1
  | 2 => if isBreak c then 3 else 2
  | _ => s

/-- The `for i, c := range b[:n]` scan loop: starting from state `s`,
returns the final state together with the number of bytes consumed
(`i + 1` when state 3 is reached, which breaks the loop, otherwise the
whole length). -/
def scanGo : Nat → List Nat → Nat × Nat
  | s, [] => (s, 0)
  | s, c :: rest =>
    let t := step s c
    if t = 3 then (3, 1)
    else
      let p := scanGo t rest
      (p.1, p.2 + 1)

/-- The mutable fields of `dotStopReader`: `state` and the carry bytes
`extra[:state]`. -/
structure DSR where
  state : Nat
  extra : List Nat
  deriving DecidableEq, Repr

/-- One `Read` call of `dotStopReader`, after the buffer-length guard:
given the chunk the underlying reader returned and whether the underlying
reader reported end of stream (`uerr`), produce the bytes delivered to the
caller, the end-of-stream flag of the returned error, and the new filter
state.  Mirrors `(*dotStopReader).Read` line by line: the early return at
state 3, the prepended carry `extra[:state]`, the scan from state 0, the
`n -= r.state` withdrawal, and `if n > 0 {return n, nil}; return 0, err`. -/
def dsrReadFull (r : DSR) (chunk : List Nat) (uerr : Bool) :
    List Nat × Bool × DSR :=
  if r.state = 3 then ([], true, r)
  else
    let buf := r.extra.take r.state ++ chunk
    let p := scanGo 0 buf
    let keep := p.2 - p.1
    let out := buf.take keep
    let extra2 := (buf.take p.2).drop keep
    (out, if out.isEmpty then uerr else false, ⟨p.1, extra2⟩)

/-- The buffer-length guard of `Read`: a destination buffer shorter than 4
bytes panics (modelled as `none`) before the underlying source is read or
any state is touched. -/
def dsrRead (blen : Nat) (r : DSR) (chunk : List Nat) (uerr : Bool) :
    Option (List Nat × Bool × DSR) :=
  if blen < 4 then none else some (dsrReadFull r chunk uerr)

/-- Once the underlying source is exhausted it keeps returning
`(0, io.EOF)`; the caller keeps calling `Read` until it receives an
end-of-stream, which happens as soon as a call delivers no bytes.  The
carry is at most 2 bytes and shrinks at every delivering call, so fuel 3
makes this loop exact. -/
def flushOut : Nat → DSR → List Nat
  | 0, _ => []
  | fuel + 1, r =>
    let q := dsrReadFull r [] true
    if q.1.isEmpty then [] else q.1 ++ flushOut fuel q.2.2

/-- Output delivered across the `Read` calls that consume the given chunks
of the underlying stream, followed by the reads made after the source is
exhausted.  (Chunks reached after the filter has entered state 3
contribute nothing, exactly as the real caller, which stops at the first
end-of-stream, would observe.) -/
def runFrom : DSR → List (List Nat) → List Nat
  | r, [] => flushOut 3 r
  | r, c :: rest =>
    let q := dsrReadFull r c false
    q.1 ++ runFrom q.2.2 rest

/-- Total filtered output for one fragmentation of the input stream. -/
def totalOutput (chunks : List (List Nat)) : List Nat :=
  runFrom ⟨0, []⟩ chunks

/-- Number of occurrences of the three-byte terminator substring
(line break, `'.'`, line break) in a byte list. -/
def termCount : List Nat → Nat
  | a :: b :: c :: rest =>
    (if isBreak a && b == 46 && isBreak c then 1 else 0) + termCount (b :: c :: rest)
  | _ => 0

/-- Inputs used by the claims about the filter, as byte lists. -/
def c1input : List Nat := [97, 10, 120, 46, 13, 81, 10, 46, 10, 90]

/-- A fragmentation of `c1input` into two underlying reads. -/
def c1fragA : List (List Nat) := [[97, 10, 120], [46, 13, 81, 10, 46, 10, 90]]

/-- The terminator-free input `"a\nx.\nZ"` of the passthrough claim. -/
def c2input : List Nat := [97, 10, 120, 46, 10, 90]

/-- The false-alarm input `"a\r\n..\r\nb"`. -/
def c4input : List Nat := [97, 13, 10, 46, 46, 13, 10, 98]

/-- The input `"Hello\r\n.\r\nworld"`. -/
def c5input : List Nat := [72, 101, 108, 108, 111, 13, 10, 46, 13, 10, 119, 111, 114, 108, 100]

/-- The expected truncated output `"Hello\r"`. -/
def c5target : List Nat := [72, 101, 108, 108, 111, 13]

/-- Every filter configuration reachable while consuming `c5input`, paired
with the number of input bytes consumed so far.  The carry is always the
scanned suffix of the consumed bytes and the stored state is its length. -/
def c5configs : List (DSR × Nat) :=
  [(⟨0, []⟩, 0), (⟨0, []⟩, 1), (⟨0, []⟩, 2), (⟨0, []⟩, 3), (⟨0, []⟩, 4), (⟨0, []⟩, 5),
   (⟨1, [13]⟩, 6), (⟨1, [10]⟩, 7), (⟨2, [10, 46]⟩, 8)]

/-- One `Read` call at position `k` of `c5input` whose underlying read
returns the next `m` bytes. -/
def c5next (r : DSR) (k m : Nat) : List Nat × Bool × DSR :=
  dsrReadFull r ((c5input.drop k).take m) false

/-- The input `"hi\n"` whose trailing line break is withheld and dropped. -/
def c10input : List Nat := [104, 105, 10]

-- ## The header assembly of `main`
--
-- `msg.Header` is a Go map from canonical field name to the list of
-- values; it is modelled as an association list.  Address-list parsing is
-- external (`net/mail`), so a recipient is modelled by the raw header
-- value it was parsed from.

/-- `msg.Header[key]`: a missing key reads as the empty value list. -/
def getH (h : List (String × List String)) (k : String) : List String :=
  match h.find? (fun p => p.1 == k) with
  | some p => p.2
  | none => []

/-- `msg.Header[key] = vals`: map assignment. -/
def setH (h : List (String × List String)) (k : String) (vs : List String) :
    List (String × List String) :=
  if (h.find? (fun p => p.1 == k)).isSome then
    h.map (fun p => if p.1 == k then (k, vs) else p)
  else h ++ [(k, vs)]

/-- `delete(msg.Header, key)`. -/
def delH (h : List (String × List String)) (k : String) : List (String × List String) :=
  h.filter (fun p => p.1 != k)

/-- The recipient list `to`: the command-line addresses, and, when `-t`
was given, the values of the To, Cc and Bcc fields in that order. -/
def deriveRecipients (tflag : Bool) (args : List String)
    (h : List (String × List String)) : List String :=
  args ++ (if tflag then getH h "To" ++ getH h "Cc" ++ getH h "Bcc" else [])

/-- The header mutations of `main`: synthesize a From field from the
resolved sender when the message has none, then delete the Bcc field. -/
def finalizeHeader (h : List (String × List String)) (fromStr : String) :
    List (String × List String) :=
  let h1 := if (getH h "From").isEmpty then setH h "From" [fromStr] else h
  delH h1 "Bcc"

/-- Recipient derivation followed by header finalization, in the order
`main` performs them (the Bcc values are read before the field is
deleted). -/
def sendmailAssemble (tflag : Bool) (args : List String)
    (h : List (String × List String)) (fromStr : String) :
    List String × List (String × List String) :=
  (deriveRecipients tflag args h, finalizeHeader h fromStr)

/-- The serialization loop of `main`: keys in ascending order, one
`Name: value` line per value. -/
def headerLines (h : List (String × List String)) : List String :=
  (((h.map Prod.fst).mergeSort (fun a b => a ≤ b)).map
    (fun k => (getH h k).map (fun v => k ++ ": " ++ v))).flatten

-- ## Lemmas about the scan loop

theorem step_le (s c : Nat) : step s c ≤ s + 1 := by
  rcases s with _ | _ | _ | n <;> simp only [step] <;> (try split) <;> omega

theorem step_eq_three {s c : Nat} (h : step s c = 3) : 2 ≤ s := by
  rcases s with _ | _ | _ | n <;> simp only [step] at h <;> (try split at h) <;> omega

theorem scanGo_count_le (s : Nat) (l : List Nat) : (scanGo s l).2 ≤ l.length := by
  induction l generalizing s with
  | nil => simp [scanGo]
  | cons c rest ih =>
    simp only [scanGo]
    split
    · simp
    · simpa using Nat.succ_le_succ (ih (step s c))

theorem scanGo_state_le (s : Nat) (l : List Nat) : (scanGo s l).1 ≤ s + (scanGo s l).2 := by
  induction l generalizing s with
  | nil => simp [scanGo]
  | cons c rest ih =>
    simp only [scanGo]
    split
    · next h => have := step_eq_three h; simp; omega
    · have h1 := step_le s c
      have h2 := ih (step s c)
      simp only
      omega

theorem scanGo_complete (l : List Nat) :
    ∀ s, (scanGo s l).1 ≠ 3 → (scanGo s l).2 = l.length := by
  induction l with
  | nil => intro s _; simp [scanGo]
  | cons c rest ih =>
    intro s
    simp only [scanGo]
    split
    · intro h; simp at h
    · intro h
      have := ih (step s c) (by simpa using h)
      simp [this]

theorem take_add_drop {α : Type} (l : List α) {k n : Nat} (h : k ≤ n) :
    l.take k ++ (l.take n).drop k = l.take n := by
  conv_rhs => rw [← List.take_append_drop k (l.take n)]
  rw [List.take_take, Nat.min_eq_left h]

-- ## Lemmas about one Read call

theorem dsrReadFull_done (extra chunk : List Nat) (u : Bool) :
    dsrReadFull ⟨3, extra⟩ chunk u = ([], true, ⟨3, extra⟩) := by
  simp [dsrReadFull]

theorem dsrReadFull_state (r : DSR) (chunk : List Nat) (u : Bool) (h : r.state ≠ 3) :
    (dsrReadFull r chunk u).2.2.state = (scanGo 0 (r.extra.take r.state ++ chunk)).1 := by
  simp [dsrReadFull, if_neg h]

theorem dsrReadFull_conserve (r : DSR) (chunk : List Nat) (u : Bool) (h : r.state ≠ 3) :
    (dsrReadFull r chunk u).1 ++ (dsrReadFull r chunk u).2.2.extra
      = (r.extra.take r.state ++ chunk).take (scanGo 0 (r.extra.take r.state ++ chunk)).2 := by
  simp only [dsrReadFull, if_neg h]
  exact take_add_drop _ (Nat.sub_le _ _)

/-- The returned carry holds at most `state` bytes, so slicing it at the
stored state is the identity: the next call rescans the whole carry. -/
theorem dsrReadFull_extra_take (r : DSR) (chunk : List Nat) (u : Bool) (h : r.state ≠ 3) :
    (dsrReadFull r chunk u).2.2.extra.take (dsrReadFull r chunk u).2.2.state
      = (dsrReadFull r chunk u).2.2.extra := by
  simp only [dsrReadFull, if_neg h]
  apply List.take_of_length_le
  have hle := scanGo_count_le 0 (r.extra.take r.state ++ chunk)
  simp only [List.length_drop, List.length_take]
  omega

/-- A `Read` call from a live state delivers a prefix of carry-plus-chunk
and carries the rest, except for bytes it discards after a terminator. -/
theorem dsrReadFull_pref (r : DSR) (chunk : List Nat) (u : Bool) (h : r.state ≠ 3) :
    ∃ d, (dsrReadFull r chunk u).1 ++ ((dsrReadFull r chunk u).2.2.extra ++ d)
        = r.extra.take r.state ++ chunk := by
  refine ⟨(r.extra.take r.state ++ chunk).drop
      (scanGo 0 (r.extra.take r.state ++ chunk)).2, ?_⟩
  rw [← List.append_assoc, dsrReadFull_conserve r chunk u h, List.take_append_drop]

/-- When the scan does not reach state 3 it consumes the whole buffer, so
nothing at all is discarded: delivered bytes plus new carry are exactly
old carry plus chunk. -/
theorem dsrReadFull_conserve_all (r : DSR) (chunk : List Nat) (u : Bool)
    (h : r.state ≠ 3) (h2 : (dsrReadFull r chunk u).2.2.state ≠ 3) :
    (dsrReadFull r chunk u).1 ++ (dsrReadFull r chunk u).2.2.extra
      = r.extra.take r.state ++ chunk := by
  have hc := dsrReadFull_conserve r chunk u h
  rw [dsrReadFull_state r chunk u h] at h2
  rw [hc, scanGo_complete _ 0 h2, List.take_length]

-- ## Lemmas about whole runs

theorem flushOut_of_done (fuel : Nat) (r : DSR) (h : r.state = 3) : flushOut fuel r = [] := by
  rcases r with ⟨s, e⟩
  subst h
  cases fuel with
  | zero => rfl
  | succ fuel => simp [flushOut, dsrReadFull_done]

theorem runFrom_of_done (chunks : List (List Nat)) :
    ∀ r : DSR, r.state = 3 → runFrom r chunks = [] := by
  induction chunks with
  | nil => intro r h; simp [runFrom, flushOut_of_done _ _ h]
  | cons c rest ih =>
    rintro ⟨s, e⟩ h
    subst h
    simp [runFrom, dsrReadFull_done, ih]

theorem flushOut_pref (fuel : Nat) :
    ∀ r : DSR, ∃ t, flushOut fuel r ++ t = r.extra.take r.state := by
  induction fuel with
  | zero => intro r; exact ⟨r.extra.take r.state, by simp [flushOut]⟩
  | succ fuel ih =>
    intro r
    by_cases h3 : r.state = 3
    · exact ⟨r.extra.take r.state, by rw [flushOut_of_done _ _ h3]; rfl⟩
    · simp only [flushOut]
      split
      · exact ⟨r.extra.take r.state, rfl⟩
      · obtain ⟨d, hd⟩ := dsrReadFull_pref r [] true h3
        obtain ⟨t, ht⟩ := ih (dsrReadFull r [] true).2.2
        rw [dsrReadFull_extra_take r [] true h3] at ht
        refine ⟨t ++ d, ?_⟩
        rw [List.append_assoc, ← List.append_assoc _ t d, ht]
        simpa using hd

theorem runFrom_pref (chunks : List (List Nat)) :
    ∀ r : DSR, ∃ t, runFrom r chunks ++ t = r.extra.take r.state ++ chunks.flatten := by
  induction chunks with
  | nil =>
    intro r
    obtain ⟨t, ht⟩ := flushOut_pref 3 r
    exact ⟨t, by simpa [runFrom] using ht⟩
  | cons c rest ih =>
    intro r
    by_cases h3 : r.state = 3
    · exact ⟨r.extra.take r.state ++ (c :: rest).flatten, by rw [runFrom_of_done _ r h3]; rfl⟩
    · by_cases h2 : (dsrReadFull r c false).2.2.state = 3
      · obtain ⟨d, hd⟩ := dsrReadFull_pref r c false h3
        refine ⟨(dsrReadFull r c false).2.2.extra ++ d ++ rest.flatten, ?_⟩
        simp only [runFrom, runFrom_of_done rest _ h2, List.append_nil, List.flatten_cons]
        rw [← List.append_assoc, ← List.append_assoc, List.append_assoc _ _ d, hd,
          List.append_assoc]
      · obtain ⟨t, ht⟩ := ih (dsrReadFull r c false).2.2
        rw [dsrReadFull_extra_take r c false h3] at ht
        refine ⟨t, ?_⟩
        simp only [runFrom, List.flatten_cons, List.append_assoc]
        rw [ht, ← List.append_assoc, dsrReadFull_conserve_all r c false h3 h2,
          List.append_assoc]

-- ## Fragmentation independence on `c5input`

/-- Closure of `c5configs` under one `Read` of any number of fresh bytes:
either the read finishes the terminator and has delivered exactly the
missing part of `c5target`, or it lands on another listed configuration
having delivered the bytes of `c5target` between the two positions. -/
theorem c5closure : ∀ p ∈ c5configs, ∀ m, m ≤ 15 →
    (((c5next p.1 p.2 m).2.2.state = 3 →
        (c5next p.1 p.2 m).1 = c5target.drop (p.2 - p.1.extra.length)) ∧
      ((c5next p.1 p.2 m).2.2.state ≠ 3 →
        ((c5next p.1 p.2 m).2.2, p.2 + m) ∈ c5configs ∧
        (c5next p.1 p.2 m).1 ++
            c5target.drop (p.2 + m - (c5next p.1 p.2 m).2.2.extra.length)
          = c5target.drop (p.2 - p.1.extra.length))) := by decide

/-- From any reachable configuration, any fragmentation of the rest of
`c5input` produces exactly the not-yet-delivered part of `c5target`. -/
theorem c5run : ∀ (chunks : List (List Nat)) (p : DSR × Nat), p ∈ c5configs →
    chunks.flatten = c5input.drop p.2 →
    runFrom p.1 chunks = c5target.drop (p.2 - p.1.extra.length) := by
  intro chunks
  induction chunks with
  | nil =>
    intro p hp hj
    fin_cases hp <;> exact absurd hj (by decide)
  | cons c rest ih =>
    rintro ⟨r, k⟩ hp hj
    have hlen : c.length ≤ 15 := by
      have h1 : c.length ≤ ((c :: rest).flatten).length := by
        simp [List.flatten_cons]
      rw [hj] at h1
      have h2 : c5input.length = 15 := by decide
      simp only [List.length_drop, h2] at h1
      omega
    have hc : c = (c5input.drop k).take c.length := by
      rw [← hj]
      simp [List.flatten_cons, List.take_left]
    have hrest : rest.flatten = c5input.drop (k + c.length) := by
      rw [← List.drop_drop, ← hj]
      simp [List.flatten_cons, List.drop_left]
    have hcl := c5closure (r, k) hp c.length hlen
    simp only [c5next, ← hc] at hcl
    by_cases h3 : (dsrReadFull r c false).2.2.state = 3
    · have h1 := hcl.1 h3
      simp only [runFrom, runFrom_of_done rest _ h3, List.append_nil]
      exact h1
    · obtain ⟨hmem, heq⟩ := hcl.2 h3
      have hrec := ih ((dsrReadFull r c false).2.2, k + c.length) hmem (by simpa using hrest)
      simp only [runFrom]
      simp only at hrec
      rw [hrec]
      exact heq

-- ## Claim theorems

/-- C1: refuted — the claim asserts that for an input with exactly one
terminator the truncated output is fragmentation-independent.  The input
`"a\nx.\rQ\n.\nZ"` contains exactly one break-dot-break substring, yet a
single-chunk run delivers `"a\n"` while splitting the stream after
`"a\nx"` delivers `"a\nx.\rQ"`: the scan never resets state 1 to 0 on an
ordinary byte, so carrying such a byte across a read boundary (where the
carry is rescanned from state 0) changes what is matched. -/
theorem C1_chunk_dependence_eval :
    termCount c1input = 1 ∧ c1fragA.flatten = c1input ∧
    totalOutput [c1input] = [97, 10] ∧
    totalOutput c1fragA = [97, 10, 120, 46, 13, 81] ∧
    totalOutput [c1input] ≠ totalOutput c1fragA := by decide

/-- C2: refuted — the claim asserts that an input with no break-dot-break
sequence passes through in full.  The terminator-free input `"a\nx.\nZ"`,
read in one chunk, is truncated to `"a\n"`: after the first line break the
scan stays in state 1 on `'x'` instead of returning to state 0, so the
unrelated `".\n"` later in the line is taken for a terminator. -/
theorem C2_passthrough_eval :
    termCount c2input = 0 ∧ totalOutput [c2input] = [97, 10] ∧
    totalOutput [c2input] ≠ c2input := by decide

/-- C3 counterexample: the claim says a byte other than CR, LF or `'.'`
moves state 1 (SawBreak) back to 0 (Idle), and that a second `'.'` moves
state 2 (SawDot) back to 0.  In the code, `'x'` (byte 120) leaves state 1
at 1 and `'.'` (byte 46) leaves state 2 at 2. -/
theorem C3_counterexample :
    (step 1 120 = 1 ∧ step 1 120 ≠ 0) ∧ (step 2 46 = 2 ∧ step 2 46 ≠ 0) := by decide

/-- C3 amended: the per-byte scan moves Idle to SawBreak on a line break,
SawBreak to SawDot on `'.'`, and SawDot to Done on a line break; every
other byte leaves the state unchanged — in particular a non-dot byte
keeps SawBreak (it never falls back to Idle) and a second `'.'` keeps
SawDot. -/
theorem C3_transition_table (c b : Nat) (hb : isBreak c = false)
    (hd : (c == 46) = false) (hbb : isBreak b = true) :
    step 0 c = 0 ∧ step 0 b = 1 ∧ step 1 c = 1 ∧ step 1 b = 1 ∧ step 1 46 = 2 ∧
    step 2 c = 2 ∧ step 2 46 = 2 ∧ step 2 b = 3 := by
  have hb2 : b = 13 ∨ b = 10 := by simpa [isBreak] using hbb
  rcases hb2 with h | h <;> subst h <;>
    refine ⟨by simp [step, hb], by decide, by simp [step, hd], by decide, by decide,
      by simp [step, hb], by decide, by decide⟩

/-- C3 witness: the amended table evaluated at the ordinary byte `'x'`
and the break byte LF. -/
theorem C3_transition_table_witness :
    step 0 120 = 0 ∧ step 0 10 = 1 ∧ step 1 120 = 1 ∧ step 1 10 = 1 ∧ step 1 46 = 2 ∧
    step 2 120 = 2 ∧ step 2 46 = 2 ∧ step 2 10 = 3 :=
  C3_transition_table 120 10 (by decide) (by decide) (by decide)

/-- C4 counterexample: the claim says the two-dot input `"a\r\n..\r\nb"`
is passed through unchanged; in fact the filter's total output differs
from the input. -/
theorem C4_counterexample : totalOutput [c4input] ≠ c4input := by decide

/-- C4 amended: on the input `"a\r\n..\r\nb"` supplied in a single
underlying read, the filter DOES trigger termination — the `Read` ends in
state 3 having delivered exactly `"a\r\n"`, and `"b"` is never
delivered. -/
theorem C4_two_dots_terminate :
    totalOutput [c4input] = [97, 13, 10] ∧
    (dsrReadFull ⟨0, []⟩ c4input false).2.2.state = 3 ∧
    (dsrReadFull ⟨0, []⟩ c4input false).1 = [97, 13, 10] := by decide

/-- C5: for every fragmentation of `"Hello\r\n.\r\nworld"` into underlying
reads, the concatenated output of the filter is exactly `"Hello\r"`; the
trailing `"world"` is never delivered. -/
theorem C5_terminator_stripped (chunks : List (List Nat))
    (hj : chunks.flatten = c5input) : totalOutput chunks = c5target := by
  have h := c5run chunks (⟨0, []⟩, 0) (by decide) (by simpa using hj)
  simpa [totalOutput] using h

/-- C5 witness: the single-chunk fragmentation. -/
theorem C5_terminator_stripped_witness : totalOutput [c5input] = c5target :=
  C5_terminator_stripped [c5input] (by decide)

/-- C6: across every fragmentation the concatenated output is a
contiguous prefix of the input (no byte duplicated, reordered or
invented); and a read that does not finish the terminator loses nothing —
the delivered bytes followed by the new carry are exactly the
re-prepended old carry followed by the fresh chunk. -/
theorem C6_no_loss_no_dup :
    (∀ chunks : List (List Nat), ∃ t, totalOutput chunks ++ t = chunks.flatten) ∧
    (∀ (r : DSR) (chunk : List Nat) (u : Bool), r.state ≠ 3 →
      (dsrReadFull r chunk u).2.2.state ≠ 3 →
      (dsrReadFull r chunk u).1 ++ (dsrReadFull r chunk u).2.2.extra
        = r.extra.take r.state ++ chunk) := by
  constructor
  · intro chunks
    obtain ⟨t, ht⟩ := runFrom_pref chunks ⟨0, []⟩
    exact ⟨t, by simpa [totalOutput] using ht⟩
  · exact dsrReadFull_conserve_all

/-- C6 witness: the conservation equation evaluated on a concrete read. -/
theorem C6_no_loss_no_dup_witness :
    (∃ t, totalOutput [[104, 105]] ++ t = [[104, 105]].flatten) ∧
    (dsrReadFull ⟨0, []⟩ [104, 105] false).1 ++ (dsrReadFull ⟨0, []⟩ [104, 105] false).2.2.extra
      = ([] : List Nat).take 0 ++ [104, 105] :=
  ⟨C6_no_loss_no_dup.1 [[104, 105]],
   C6_no_loss_no_dup.2 ⟨0, []⟩ [104, 105] false (by decide) (by decide)⟩

/-- C7: once the filter is in state 3 (Done), every `Read` returns zero
bytes with an immediate end-of-stream, leaves the state untouched, and
its result does not depend on what the underlying source would have
returned (it is never consulted); whole runs from a Done state deliver
nothing. -/
theorem C7_done_eof (extra chunk chunk2 : List Nat) (u u2 : Bool)
    (chunks : List (List Nat)) :
    dsrReadFull ⟨3, extra⟩ chunk u = ([], true, ⟨3, extra⟩) ∧
    dsrReadFull ⟨3, extra⟩ chunk u = dsrReadFull ⟨3, extra⟩ chunk2 u2 ∧
    runFrom ⟨3, extra⟩ chunks = [] := by
  refine ⟨dsrReadFull_done extra chunk u, ?_, runFrom_of_done chunks ⟨3, extra⟩ rfl⟩
  rw [dsrReadFull_done, dsrReadFull_done]

/-- C8: a `Read` with a buffer shorter than 4 bytes panics (modelled as
`none`) regardless of filter state and before the underlying source could
contribute anything — the result does not depend on the chunk; with a
buffer of at least 4 bytes the call always completes normally. -/
theorem C8_buffer_guard (blen : Nat) (r : DSR) (chunk chunk2 : List Nat) (u u2 : Bool) :
    (blen < 4 → dsrRead blen r chunk u = none ∧
      dsrRead blen r chunk u = dsrRead blen r chunk2 u2) ∧
    (4 ≤ blen → dsrRead blen r chunk u = some (dsrReadFull r chunk u)) := by
  constructor
  · intro h
    simp [dsrRead, h]
  · intro h
    simp [dsrRead, Nat.not_lt.mpr h]

/-- C8 witness: a 3-byte buffer panics, a 4-byte buffer does not. -/
theorem C8_buffer_guard_witness :
    (dsrRead 3 ⟨0, []⟩ [104] false = none ∧
      dsrRead 3 ⟨0, []⟩ [104] false = dsrRead 3 ⟨0, []⟩ [105] true) ∧
    dsrRead 4 ⟨0, []⟩ [104] false = some (dsrReadFull ⟨0, []⟩ [104] false) :=
  ⟨(C8_buffer_guard 3 ⟨0, []⟩ [104] [105] false true).1 (by decide),
   (C8_buffer_guard 4 ⟨0, []⟩ [104] [105] false true).2 (by decide)⟩

/-- C9: in both recipient modes the finalized header block contains no
Bcc field — neither in the block itself nor in the sorted key sequence
the serializer iterates — while in `-t` mode the Bcc values have already
been consumed into the recipient list before the field was deleted. -/
theorem C9_bcc_stripped (tflag : Bool) (args : List String)
    (h : List (String × List String)) (fromStr : String) :
    "Bcc" ∉ ((sendmailAssemble tflag args h fromStr).2.map Prod.fst) ∧
    "Bcc" ∉ (((sendmailAssemble tflag args h fromStr).2.map Prod.fst).mergeSort
      (fun a b => a ≤ b)) ∧
    (sendmailAssemble true args h fromStr).1
      = args ++ getH h "To" ++ getH h "Cc" ++ getH h "Bcc" := by
  have hkey : "Bcc" ∉ ((sendmailAssemble tflag args h fromStr).2.map Prod.fst) := by
    intro hmem
    rw [List.mem_map] at hmem
    obtain ⟨p, hp, hfst⟩ := hmem
    simp only [sendmailAssemble, finalizeHeader, delH] at hp
    rw [List.mem_filter] at hp
    have hne := hp.2
    rw [hfst] at hne
    simp at hne
  refine ⟨hkey, by simpa [List.mem_mergeSort] using hkey, ?_⟩
  simp [sendmailAssemble, deriveRecipients]

/-- C10: when the source reaches end of stream while the carry holds a
trailing line break, or a line break followed by a dot, those withheld
bytes are dropped: the flushing reads deliver nothing and signal end of
stream at once; in particular `"hi\n"` yields total output `"hi"`. -/
theorem C10_carry_dropped_at_eof (b : Nat) (hb : isBreak b = true) :
    flushOut 3 ⟨1, [b]⟩ = [] ∧ flushOut 3 ⟨2, [b, 46]⟩ = [] ∧
    dsrReadFull ⟨1, [b]⟩ [] true = ([], true, ⟨1, [b]⟩) ∧
    dsrReadFull ⟨2, [b, 46]⟩ [] true = ([], true, ⟨2, [b, 46]⟩) ∧
    totalOutput [c10input] = [104, 105] := by
  have hb2 : b = 13 ∨ b = 10 := by simpa [isBreak] using hb
  rcases hb2 with h | h <;> subst h <;> exact (by decide)

/-- C10 witness: the dropped carry evaluated at the LF byte. -/
theorem C10_carry_dropped_at_eof_witness :
    flushOut 3 ⟨1, [10]⟩ = [] ∧ flushOut 3 ⟨2, [10, 46]⟩ = [] ∧
    dsrReadFull ⟨1, [10]⟩ [] true = ([], true, ⟨1, [10]⟩) ∧
    dsrReadFull ⟨2, [10, 46]⟩ [] true = ([], true, ⟨2, [10, 46]⟩) ∧
    totalOutput [c10input] = [104, 105] :=
  C10_carry_dropped_at_eof 10 (by decide)
